import Mathlib

/-!
Shallow embedding of the countish library (src/lib.rs): three frequency
counters over association-list models of HashMap<String, _>.

Conventions: f64 quantities are modelled as rationals (all arithmetic the
code performs on them — adding 1, doubling, subtraction, comparison — is
exact in f64 over the ranges involved); u64 counters are modelled as Nat.
Randomness consumed by StickySampler is injected explicitly: the admission
draw of each observe call, and, for rate-adjustment pruning, the number of
"continue" coin flips the generator yields per tracked key before the
first "stop" flip.
-/

/-- Model of HashMap::get — the binding stored for a key, if any. -/
def mapLookup {α : Type} (k : String) : List (String × α) → Option α
  | [] => none
  | (k', v) :: t => if k' = k then some v else mapLookup k t

/-- Model of HashMap::insert — replace the binding if present, else append. -/
def mapInsert {α : Type} (k : String) (v : α) : List (String × α) → List (String × α)
  | [] => [(k, v)]
  | (k', v') :: t => if k' = k then (k, v) :: t else (k', v') :: mapInsert k v t

/-- Model of HashMap::remove — drop the binding for the key, if present. -/
def mapEraseKey {α : Type} (k : String) : List (String × α) → List (String × α)
  | [] => []
  | (k', v) :: t => if k' = k then t else (k', v) :: mapEraseKey k t

/-- The keys of the map, in storage order. -/
def mapKeys {α : Type} (m : List (String × α)) : List String := m.map Prod.fst

/-- Sum of all stored counts, for the NaiveSampler invariant. -/
def mapSum (m : List (String × ℕ)) : ℕ := (m.map Prod.snd).sum

/-- Result record returned by every counter: a key and its estimated
frequency (lib.rs 22-28). -/
structure Entry where
  key : String
  frequency : ℚ
  deriving DecidableEq

/-- NaiveSampler — the exact reference counter (lib.rs 30-35). -/
structure NaiveSampler where
  n : ℕ
  vals : List (String × ℕ)
  deriving DecidableEq

/-- new_naive_sampler (lib.rs 38-43). -/
def new_naive_sampler : NaiveSampler :=
  { n := 0, vals := [] }

/-- NaiveSampler::observe (lib.rs 47-50): increment n and the key's count
(entry(key).or_insert(0) += 1). -/
def NaiveSampler.observe (s : NaiveSampler) (key : String) : NaiveSampler :=
  { n := s.n + 1
    vals := mapInsert key ((mapLookup key s.vals).getD 0 + 1) s.vals }

/-- The cutoff ((self.n as f64) * threshold) as u64 (lib.rs 53); the
f64→u64 cast truncates toward zero and saturates at 0 below zero, which
Int.toNat of the floor reproduces. -/
def naiveCutoff (s : NaiveSampler) (threshold : ℚ) : ℕ :=
  (⌊(s.n : ℚ) * threshold⌋).toNat

/-- NaiveSampler::items_above_threshold (lib.rs 52-64). -/
def NaiveSampler.items_above_threshold (s : NaiveSampler) (threshold : ℚ) :
    List Entry :=
  (s.vals.filter (fun kv => decide (naiveCutoff s threshold ≤ kv.2))).map
    (fun kv => { key := kv.1, frequency := (kv.2 : ℚ) / (s.n : ℚ) })

/-- Feed a stream of keys into a fresh NaiveSampler. -/
def naiveRun (l : List String) : NaiveSampler :=
  l.foldl NaiveSampler.observe new_naive_sampler

/-- The (f, delta) pair LossyCounter stores per key (lib.rs 67-71). -/
structure FDeltaPair where
  f : ℚ
  delta : ℚ
  deriving DecidableEq

/-- LossyCounter state (lib.rs 76-82). -/
structure LossyCounter where
  support : ℚ
  d : List (String × FDeltaPair)
  n : ℕ
  bucket_width : ℕ
  deriving DecidableEq

/-- new_lossy_counter (lib.rs 85-92): bucket_width = (1/error_tolerance).ceil()
as u64.  In ℚ, 1/0 = 0, so error_tolerance = 0 yields bucket_width 0; in f64
the same input yields +inf, which the cast saturates to u64::MAX.  Under
either reading construction performs no validation and raises no error. -/
def new_lossy_counter (support error_tolerance : ℚ) : LossyCounter :=
  { support := support
    d := []
    bucket_width := (⌈1 / error_tolerance⌉).toNat
    n := 0 }

/-- LossyCounter::prune (lib.rs 94-104): collect every key whose entry has
f + delta <= bucket, then remove each collected key. -/
def LossyCounter.prune (c : LossyCounter) (bucket : ℕ) : LossyCounter :=
  let to_remove : List String :=
    (c.d.filter (fun kv => decide (kv.2.f + kv.2.delta ≤ (bucket : ℚ)))).map Prod.fst
  { c with d := to_remove.foldl (fun m k => mapEraseKey k m) c.d }

/-- LossyCounter::observe (lib.rs 123-139). -/
def LossyCounter.observe (c : LossyCounter) (key : String) : LossyCounter :=
  let n' := c.n + 1
  let bucket := n' / c.bucket_width + 1
  let newval : FDeltaPair :=
    match mapLookup key c.d with
    | some val => { f := val.f + 1, delta := val.delta }
    | none => { f := 1, delta := ((bucket - 1 : ℕ) : ℚ) }
  let c' : LossyCounter := { c with n := n', d := mapInsert key newval c.d }
  if n' % c.bucket_width = 0 then c'.prune bucket else c'

/-- LossyCounter::items_above_threshold (lib.rs 108-121). -/
def LossyCounter.items_above_threshold (c : LossyCounter) (threshold : ℚ) :
    List Entry :=
  (c.d.filter (fun kv => decide ((threshold - kv.2.delta) * (c.n : ℚ) ≤ kv.2.f))).map
    (fun kv => { key := kv.1, frequency := kv.2.f / (c.n : ℚ) + c.support })

/-- Feed a stream of keys into a LossyCounter. -/
def lossyRun (c : LossyCounter) (l : List String) : LossyCounter :=
  l.foldl LossyCounter.observe c

/-- The per-key update described for observe: an already-tracked key keeps
its delta and gets f + 1; a new key enters with f = 1 and
delta = currentBucket - 1, currentBucket = floor((n+1)/bucketWidth) + 1. -/
def lossySpecUpdate (c : LossyCounter) (key : String) : FDeltaPair :=
  match mapLookup key c.d with
  | some val => { f := val.f + 1, delta := val.delta }
  | none => { f := 1, delta := (((c.n + 1) / c.bucket_width + 1 - 1 : ℕ) : ℚ) }

/-- StickySampler state (lib.rs 144-152). -/
structure StickySampler where
  error_tolerance : ℚ
  support : ℚ
  s : List (String × ℚ)
  r : ℚ
  n : ℚ
  t : ℚ
  deriving DecidableEq

/-- new_sampler (lib.rs 156-166) computes
t = 2/error_tolerance * ln(1/(support*failure_prob)).  ℚ has no natural
logarithm, so the factor ln(1/(support*failure_prob)) is passed explicitly
as ln_term.  As in the code, no argument is validated and construction
never fails. -/
def new_sampler (support error_tolerance failure_prob ln_term : ℚ) : StickySampler :=
  { error_tolerance := error_tolerance
    support := support
    r := 1
    t := 2 / error_tolerance * ln_term
    s := []
    n := 0 }

/-- One decrement step of the prune loop (lib.rs 191):
*self.s.entry(key).or_insert(1.0) -= 1.0. -/
def decrOne (m : List (String × ℚ)) (k : String) : List (String × ℚ) :=
  match mapLookup k m with
  | some v => mapInsert k (v - 1) m
  | none => mapInsert k (1 - 1) m

/-- StickySampler::prune (lib.rs 168-193) with the coin flips injected:
draws key is the number of consecutive "continue" flips drawn for that key
before the first "stop".  Each continue flip pushes the key once onto
to_remove (when val - 1 <= 0, recomputed from the stored val each flip) or
onto to_decr (otherwise); afterwards every key in to_remove is removed and
every occurrence in to_decr applies one unit decrement.  HashMap iteration
order is unspecified in the source; the per-key outcome is independent of
it, and the model fixes storage order. -/
def StickySampler.prune (st : StickySampler) (draws : String → ℕ) : StickySampler :=
  let to_remove : List String :=
    st.s.flatMap (fun kv => if kv.2 - 1 ≤ 0 then List.replicate (draws kv.1) kv.1 else [])
  let to_decr : List String :=
    st.s.flatMap (fun kv => if kv.2 - 1 ≤ 0 then [] else List.replicate (draws kv.1) kv.1)
  { st with s := to_decr.foldl decrOne (to_remove.foldl (fun m k => mapEraseKey k m) st.s) }

/-- Injected randomness for one observe call: the admission draw u (the
code samples a fresh key iff next_f64() <= 1/r) and the prune coin flips
used if this call triggers a doubling. -/
structure Oracle where
  key : String
  u : ℚ
  draws : String → ℕ

/-- The tracking update at the tail of observe (lib.rs 218-230): a tracked
key gets +1; an untracked key is admitted iff u <= 1/r, entering via
entry(k).or_insert(0.0) += 1.0. -/
def stickyAdmit (o : Oracle) (st : StickySampler) : StickySampler :=
  match mapLookup o.key st.s with
  | some v => { st with s := mapInsert o.key (v + 1) st.s }
  | none =>
    if o.u ≤ 1 / st.r then { st with s := mapInsert o.key (0 + 1) st.s } else st

/-- StickySampler::observe (lib.rs 210-231): increment n; if n > t, double
t and r and run the rate-adjustment prune; then the tracking update. -/
def stickyObserve (o : Oracle) (st : StickySampler) : StickySampler :=
  let st1 :=
    if st.n + 1 > st.t then
      ({ st with n := st.n + 1, t := st.t * 2, r := st.r * 2 }).prune o.draws
    else { st with n := st.n + 1 }
  stickyAdmit o st1

/-- StickySampler::items_above_threshold (lib.rs 197-208). -/
def StickySampler.items_above_threshold (st : StickySampler) (threshold : ℚ) :
    List Entry :=
  (st.s.filter (fun kv => decide ((threshold - st.error_tolerance) * st.n ≤ kv.2))).map
    (fun kv => { key := kv.1, frequency := kv.2 / st.n + st.support })

/-- Feed a stream of observe calls (with their injected randomness) into a
StickySampler. -/
def stickyRun (l : List Oracle) (st : StickySampler) : StickySampler :=
  l.foldl (fun s o => stickyObserve o s) st

/-! Concrete inputs used by witnesses and counterexamples. -/

/-- A LossyCounter mid-stream: one tracked key, width-2 buckets. -/
def cLW : LossyCounter :=
  { support := 1/100, d := [("a", { f := 2, delta := 0 })], n := 1, bucket_width := 2 }

/-- A fresh-but-for-one-observation LossyCounter with width-2 buckets. -/
def cC10 : LossyCounter :=
  { support := 1/100, d := [], n := 1, bucket_width := 2 }

/-- A NaiveSampler holding two keys. -/
def sNW : NaiveSampler :=
  { n := 4, vals := [("a", 3), ("b", 1)] }

/-- A StickySampler with three tracked keys, used to exercise pruning. -/
def stPW : StickySampler :=
  { error_tolerance := 1/10, support := 1/10, s := [("a", 3), ("b", 2), ("c", 1)],
    r := 2, n := 5, t := 10 }

/-- Coin flips for stPW: no continue flips for "a", two for "b", one for "c". -/
def drawsW : String → ℕ :=
  fun k => if k = "a" then 0 else if k = "b" then 2 else 1

/-- A StickySampler whose every tracked key draws two continue flips. -/
def stC3 : StickySampler :=
  { error_tolerance := 1/10, support := 1/10, s := [("a", 3), ("b", 2)],
    r := 2, n := 5, t := 10 }

/-- Two continue flips for every key. -/
def drawsC3 : String → ℕ := fun _ => 2

/-- A fresh StickySampler with doubling threshold t = 3/2. -/
def stDW : StickySampler :=
  { error_tolerance := 1/10, support := 1/10, s := [], r := 1, n := 0, t := 3/2 }

/-- A fixed observe-call oracle for witnesses. -/
def oW : Oracle := { key := "x", u := 1, draws := fun _ => 0 }


/-- Intermediate states of the C7 stream "a","a","a" on a width-2 counter:
the start state. -/
def cA0 : LossyCounter := { support := 1/100, d := [], n := 0, bucket_width := 2 }

/-- After the first observe: "a" tracked with f = 1, delta = 0. -/
def cA1 : LossyCounter :=
  { support := 1/100, d := [("a", { f := 1, delta := 0 })], n := 1, bucket_width := 2 }

/-- After the second observe: the boundary prune removed "a"
(f + delta = 2 <= currentBucket = 2) although its true count is 2. -/
def cA2 : LossyCounter := { support := 1/100, d := [], n := 2, bucket_width := 2 }

/-- After the third observe: "a" re-enters with f = 1, delta = 1 while its
true count is 3. -/
def cA3 : LossyCounter :=
  { support := 1/100, d := [("a", { f := 1, delta := 1 })], n := 3, bucket_width := 2 }

/-! ### Association-list lemmas -/

@[simp] theorem mapKeys_def {α : Type} (m : List (String × α)) :
    mapKeys m = m.map Prod.fst := rfl

theorem mapLookup_mapInsert {α : Type} (j k : String) (v : α) (m : List (String × α)) :
    mapLookup j (mapInsert k v m) = if k = j then some v else mapLookup j m := by
  induction m with
  | nil => simp [mapLookup, mapInsert]
  | cons kv t ih =>
    obtain ⟨k', v'⟩ := kv
    by_cases h : k' = k
    · subst h
      by_cases hj : k' = j <;> simp [mapInsert, mapLookup, hj]
    · by_cases hj : k' = j
      · subst hj
        have h' : k ≠ k' := fun hc => h hc.symm
        simp [mapInsert, h, mapLookup, h']
      · simp [mapInsert, h, mapLookup, hj, ih]

theorem mapKeys_mapInsert {α : Type} (k : String) (v : α) (m : List (String × α)) :
    mapKeys (mapInsert k v m) =
      if k ∈ mapKeys m then mapKeys m else mapKeys m ++ [k] := by
  induction m with
  | nil => simp [mapInsert]
  | cons kv t ih =>
    obtain ⟨k', v'⟩ := kv
    simp only [mapKeys_def] at ih ⊢
    by_cases h : k' = k
    · subst h; simp [mapInsert]
    · have h' : k ≠ k' := fun hc => h hc.symm
      simp only [mapInsert, if_neg h, List.map_cons]
      rw [ih]
      by_cases hm : k ∈ List.map Prod.fst t
      · simp [hm, h']
      · simp [hm, h']

theorem nodup_mapKeys_mapInsert {α : Type} (k : String) (v : α) (m : List (String × α))
    (h : (mapKeys m).Nodup) : (mapKeys (mapInsert k v m)).Nodup := by
  rw [mapKeys_mapInsert]
  simp only [mapKeys_def] at h ⊢
  by_cases hm : k ∈ List.map Prod.fst m
  · simpa [hm] using h
  · simp only [if_neg hm]
    rw [List.nodup_append]
    refine ⟨h, List.nodup_singleton k, fun a ha hb => ?_⟩
    simp only [List.mem_singleton] at hb
    subst hb
    exact hm ha

theorem mapLookup_eq_none {α : Type} (k : String) (m : List (String × α)) :
    mapLookup k m = none ↔ k ∉ mapKeys m := by
  induction m with
  | nil => simp [mapLookup]
  | cons kv t ih =>
    obtain ⟨k', v'⟩ := kv
    by_cases h : k' = k
    · subst h; simp [mapLookup]
    · have h' : k ≠ k' := fun hc => h hc.symm
      simp [mapLookup, h, h', ih]

theorem mapLookup_mem {α : Type} {k : String} {v : α} {m : List (String × α)}
    (h : mapLookup k m = some v) : (k, v) ∈ m := by
  induction m with
  | nil => simp [mapLookup] at h
  | cons kv t ih =>
    obtain ⟨k', v'⟩ := kv
    by_cases hk : k' = k
    · subst hk
      simp [mapLookup] at h
      simp [h]
    · simp [mapLookup, hk] at h
      simp [ih h]

theorem mem_mapLookup {α : Type} {k : String} {v : α} {m : List (String × α)}
    (hmem : (k, v) ∈ m) (hnd : (mapKeys m).Nodup) : mapLookup k m = some v := by
  induction m with
  | nil => simp at hmem
  | cons kv t ih =>
    obtain ⟨k', v'⟩ := kv
    simp only [mapKeys_def, List.map_cons, List.nodup_cons] at hnd
    rcases List.mem_cons.mp hmem with hh | ht
    · simp only [Prod.mk.injEq] at hh
      obtain ⟨rfl, rfl⟩ := hh
      simp [mapLookup]
    · by_cases hk : k' = k
      · subst hk
        exact absurd (List.mem_map.mpr ⟨(k', v), ht, rfl⟩) hnd.1
      · have := ih ht (by simpa using hnd.2)
        simp [mapLookup, hk, this]

theorem mapLookup_mapEraseKey {α : Type} (j k : String) (m : List (String × α))
    (hnd : (mapKeys m).Nodup) :
    mapLookup j (mapEraseKey k m) = if k = j then none else mapLookup j m := by
  induction m with
  | nil => simp [mapLookup, mapEraseKey]
  | cons kv t ih =>
    obtain ⟨k', v'⟩ := kv
    simp only [mapKeys_def, List.map_cons, List.nodup_cons] at hnd
    by_cases h : k' = k
    · subst h
      by_cases hj : k' = j
      · subst hj
        have hnone : mapLookup k' t = none := by
          rw [mapLookup_eq_none]
          simp only [mapKeys_def]
          exact hnd.1
        simp [mapEraseKey, hnone]
      · have h' : k' ≠ j := hj
        simp [mapEraseKey, mapLookup, h']
    · by_cases hj : k' = j
      · subst hj
        have h'' : k ≠ k' := fun hc => h hc.symm
        simp [mapEraseKey, h, mapLookup, h'']
      · have := ih (by simpa using hnd.2)
        simp [mapEraseKey, h, mapLookup, hj, this]

theorem mapKeys_mapEraseKey_sublist {α : Type} (k : String) (m : List (String × α)) :
    (mapKeys (mapEraseKey k m)).Sublist (mapKeys m) := by
  induction m with
  | nil => simp [mapEraseKey]
  | cons kv t ih =>
    obtain ⟨k', v'⟩ := kv
    simp only [mapKeys_def] at ih ⊢
    by_cases h : k' = k
    · simp only [mapEraseKey, if_pos h, List.map_cons]
      exact List.sublist_cons_self _ _
    · simp only [mapEraseKey, if_neg h, List.map_cons]
      exact List.Sublist.cons₂ _ ih

theorem nodup_mapKeys_mapEraseKey {α : Type} (k : String) (m : List (String × α))
    (hnd : (mapKeys m).Nodup) : (mapKeys (mapEraseKey k m)).Nodup :=
  (mapKeys_mapEraseKey_sublist k m).nodup hnd

theorem mapKeys_filter_sublist {α : Type} (p : String × α → Bool) (m : List (String × α)) :
    (mapKeys (m.filter p)).Sublist (mapKeys m) := by
  simp only [mapKeys_def]
  exact (List.filter_sublist _).map Prod.fst

theorem mapLookup_filter {α : Type} (j : String) (p : String × α → Bool)
    (m : List (String × α)) (hnd : (mapKeys m).Nodup) :
    mapLookup j (m.filter p) =
      match mapLookup j m with
      | some v => if p (j, v) then some v else none
      | none => none := by
  induction m with
  | nil => simp [mapLookup]
  | cons kv t ih =>
    obtain ⟨k', v'⟩ := kv
    simp only [mapKeys_def, List.map_cons, List.nodup_cons] at hnd
    have iht := ih (by simpa using hnd.2)
    by_cases h : k' = j
    · subst h
      have hnone : mapLookup k' t = none := by
        rw [mapLookup_eq_none]; simpa using hnd.1
      have hfnone : mapLookup k' (t.filter p) = none := by
        rw [mapLookup_eq_none]
        intro hc
        rw [mapLookup_eq_none] at hnone
        exact hnone ((mapKeys_filter_sublist p t).subset hc)
      cases hp : p (k', v') <;>
        simp [List.filter_cons, hp, mapLookup, hfnone, hnone]
    · cases hp : p (k', v') <;>
        simp [List.filter_cons, hp, mapLookup, h, iht]

theorem mapLookup_foldl_eraseKey {α : Type} (ks : List String) (m : List (String × α))
    (j : String) (hnd : (mapKeys m).Nodup) :
    mapLookup j (ks.foldl (fun acc k => mapEraseKey k acc) m) =
      if j ∈ ks then none else mapLookup j m := by
  induction ks generalizing m with
  | nil => simp
  | cons k ks ih =>
    simp only [List.foldl_cons]
    rw [ih _ (nodup_mapKeys_mapEraseKey k m hnd), mapLookup_mapEraseKey j k m hnd]
    by_cases h1 : j ∈ ks
    · simp [h1]
    · by_cases h2 : k = j
      · subst h2; simp [h1]
      · have h2' : j ≠ k := fun hc => h2 hc.symm
        simp [h1, h2, h2']

theorem nodup_mapKeys_foldl_eraseKey {α : Type} (ks : List String)
    (m : List (String × α)) (hnd : (mapKeys m).Nodup) :
    (mapKeys (ks.foldl (fun acc k => mapEraseKey k acc) m)).Nodup := by
  induction ks generalizing m with
  | nil => simpa
  | cons k ks ih =>
    simp only [List.foldl_cons]
    exact ih _ (nodup_mapKeys_mapEraseKey k m hnd)

theorem mapLookup_decrOne (m : List (String × ℚ)) (k j : String) :
    mapLookup j (decrOne m k) =
      if k = j then some ((mapLookup j m).getD 1 - 1) else mapLookup j m := by
  unfold decrOne
  cases hl : mapLookup k m with
  | none =>
    rw [mapLookup_mapInsert]
    by_cases h : k = j
    · subst h; simp [hl]
    · simp [h]
  | some v =>
    rw [mapLookup_mapInsert]
    by_cases h : k = j
    · subst h; simp [hl]
    · simp [h]

theorem mapLookup_foldl_decrOne (ks : List String) (m : List (String × ℚ)) (j : String) :
    mapLookup j (ks.foldl decrOne m) =
      if ks.count j = 0 then mapLookup j m
      else some ((mapLookup j m).getD 1 - (ks.count j : ℚ)) := by
  induction ks generalizing m with
  | nil => simp
  | cons k ks ih =>
    simp only [List.foldl_cons]
    rw [ih, mapLookup_decrOne]
    by_cases h : k = j
    · subst h
      by_cases h0 : ks.count k = 0
      · simp [h0, List.count_cons_self]
      · have hc1 : ¬(ks.count k + 1 = 0) := by omega
        rw [List.count_cons_self, if_neg h0, if_pos rfl, if_neg hc1]
        have hgd : (some ((mapLookup k m).getD 1 - 1)).getD 1 =
            (mapLookup k m).getD 1 - 1 := rfl
        rw [hgd]
        congr 1
        push_cast
        ring
    · have h' : j ≠ k := fun hc => h hc.symm
      rw [List.count_cons_of_ne h']
      simp [h]

theorem count_flatMap_replicate (q : String × ℚ → Prop) [DecidablePred q]
    (draws : String → ℕ) (m : List (String × ℚ)) (j : String)
    (hnd : (mapKeys m).Nodup) :
    (m.flatMap fun kv =>
        if q kv then List.replicate (draws kv.1) kv.1 else []).count j =
      match mapLookup j m with
      | some v => if q (j, v) then draws j else 0
      | none => 0 := by
  induction m with
  | nil => simp [mapLookup]
  | cons kv t ih =>
    obtain ⟨k, v⟩ := kv
    simp only [mapKeys_def, List.map_cons, List.nodup_cons] at hnd
    have iht := ih (by simpa using hnd.2)
    rw [List.flatMap_cons, List.count_append, iht]
    by_cases h : k = j
    · subst h
      have hnone : mapLookup k t = none := by
        rw [mapLookup_eq_none]; simpa using hnd.1
      by_cases hq : q (k, v) <;>
        simp [hnone, hq, mapLookup, List.count_replicate]
    · by_cases hq : q (k, v) <;>
        simp [hq, mapLookup, h, List.count_replicate, fun hc : j = k => h hc.symm]

theorem mapSum_nil : mapSum [] = 0 := rfl

theorem mapSum_cons (kv : String × ℕ) (t : List (String × ℕ)) :
    mapSum (kv :: t) = kv.2 + mapSum t := by
  simp [mapSum]

theorem mapSum_observe_update (k : String) (m : List (String × ℕ)) :
    mapSum (mapInsert k ((mapLookup k m).getD 0 + 1) m) = mapSum m + 1 := by
  induction m with
  | nil => simp [mapSum, mapInsert, mapLookup]
  | cons kv t ih =>
    obtain ⟨k', v'⟩ := kv
    by_cases h : k' = k
    · subst h
      simp [mapInsert, mapLookup, mapSum_cons]
      omega
    · simp [mapInsert, h, mapLookup, mapSum_cons, ih]
      omega

theorem count_flatMap_replicate_neg (q : String × ℚ → Prop) [DecidablePred q]
    (draws : String → ℕ) (m : List (String × ℚ)) (j : String)
    (hnd : (mapKeys m).Nodup) :
    (m.flatMap fun kv =>
        if q kv then [] else List.replicate (draws kv.1) kv.1).count j =
      match mapLookup j m with
      | some v => if q (j, v) then 0 else draws j
      | none => 0 := by
  induction m with
  | nil => simp [mapLookup]
  | cons kv t ih =>
    obtain ⟨k, v⟩ := kv
    simp only [mapKeys_def, List.map_cons, List.nodup_cons] at hnd
    have iht := ih (by simpa using hnd.2)
    rw [List.flatMap_cons, List.count_append, iht]
    by_cases h : k = j
    · subst h
      have hnone : mapLookup k t = none := by
        rw [mapLookup_eq_none]; simpa using hnd.1
      by_cases hq : q (k, v) <;>
        simp [hnone, hq, mapLookup, List.count_replicate]
    · by_cases hq : q (k, v) <;>
        simp [hq, mapLookup, h, List.count_replicate, fun hc : j = k => h hc.symm]

/-! ### StickySampler helper lemmas -/

theorem stickyPrune_s (st : StickySampler) (draws : String → ℕ) :
    (st.prune draws).s =
      (st.s.flatMap fun kv =>
          if kv.2 - 1 ≤ 0 then [] else List.replicate (draws kv.1) kv.1).foldl decrOne
        ((st.s.flatMap fun kv =>
            if kv.2 - 1 ≤ 0 then List.replicate (draws kv.1) kv.1 else []).foldl
          (fun m k => mapEraseKey k m) st.s) := rfl

theorem stickyPrune_lookup (st : StickySampler) (draws : String → ℕ) (j : String)
    (hnd : (mapKeys st.s).Nodup) :
    mapLookup j (st.prune draws).s =
      match mapLookup j st.s with
      | none => none
      | some v =>
        if draws j = 0 then some v
        else if v - 1 ≤ 0 then none
        else some (v - (draws j : ℚ)) := by
  rw [stickyPrune_s]
  have hR := count_flatMap_replicate (fun kv => kv.2 - 1 ≤ 0) draws st.s j hnd
  have hD := count_flatMap_replicate_neg (fun kv => kv.2 - 1 ≤ 0) draws st.s j hnd
  have hs1 := mapLookup_foldl_eraseKey
    (st.s.flatMap fun kv =>
      if kv.2 - 1 ≤ 0 then List.replicate (draws kv.1) kv.1 else []) st.s j hnd
  have hs2 := mapLookup_foldl_decrOne
    (st.s.flatMap fun kv =>
      if kv.2 - 1 ≤ 0 then [] else List.replicate (draws kv.1) kv.1)
    ((st.s.flatMap fun kv =>
        if kv.2 - 1 ≤ 0 then List.replicate (draws kv.1) kv.1 else []).foldl
      (fun m k => mapEraseKey k m) st.s) j
  rw [hs2]
  cases hv : mapLookup j st.s with
  | none =>
    have hR0 : (st.s.flatMap fun kv =>
        if kv.2 - 1 ≤ 0 then List.replicate (draws kv.1) kv.1 else []).count j = 0 := by
      rw [hR, hv]
    have hD0 : (st.s.flatMap fun kv =>
        if kv.2 - 1 ≤ 0 then [] else List.replicate (draws kv.1) kv.1).count j = 0 := by
      rw [hD, hv]
    have hjR : j ∉ st.s.flatMap fun kv =>
        if kv.2 - 1 ≤ 0 then List.replicate (draws kv.1) kv.1 else [] :=
      List.count_eq_zero.mp hR0
    rw [hD0, hs1, if_neg hjR, hv]
    simp
  | some v =>
    rw [hv] at hR hD
    simp only [hv] at hs1
    by_cases hd0 : draws j = 0
    · have hR0 : (st.s.flatMap fun kv =>
          if kv.2 - 1 ≤ 0 then List.replicate (draws kv.1) kv.1 else []).count j = 0 := by
        rw [hR]; simp [hd0]
      have hD0 : (st.s.flatMap fun kv =>
          if kv.2 - 1 ≤ 0 then [] else List.replicate (draws kv.1) kv.1).count j = 0 := by
        rw [hD]; simp [hd0]
      have hjR : j ∉ _ := List.count_eq_zero.mp hR0
      rw [hD0, hs1, if_neg hjR]
      simp [hd0]
    · by_cases hv1 : v - 1 ≤ 0
      · have hRj : (st.s.flatMap fun kv =>
            if kv.2 - 1 ≤ 0 then List.replicate (draws kv.1) kv.1 else []).count j =
              draws j := by
          rw [hR]; simp [hv1]
        have hD0 : (st.s.flatMap fun kv =>
            if kv.2 - 1 ≤ 0 then [] else List.replicate (draws kv.1) kv.1).count j = 0 := by
          rw [hD]; simp [hv1]
        have hjR : j ∈
            st.s.flatMap fun kv =>
              if kv.2 - 1 ≤ 0 then List.replicate (draws kv.1) kv.1 else [] := by
          rw [← List.count_pos_iff, hRj]
          omega
        rw [hD0, if_pos rfl, hs1, if_pos hjR]
        simp [hd0, hv1]
      · have hR0 : (st.s.flatMap fun kv =>
            if kv.2 - 1 ≤ 0 then List.replicate (draws kv.1) kv.1 else []).count j = 0 := by
          rw [hR]; simp [hv1]
        have hDj : (st.s.flatMap fun kv =>
            if kv.2 - 1 ≤ 0 then [] else List.replicate (draws kv.1) kv.1).count j =
              draws j := by
          rw [hD]; simp [hv1]
        have hjR : j ∉ _ := List.count_eq_zero.mp hR0
        rw [hDj, if_neg hd0, hs1, if_neg hjR]
        simp [hd0, hv1]

theorem stickyPrune_r (st : StickySampler) (draws : String → ℕ) :
    (st.prune draws).r = st.r := rfl

theorem stickyPrune_t (st : StickySampler) (draws : String → ℕ) :
    (st.prune draws).t = st.t := rfl

theorem stickyPrune_n (st : StickySampler) (draws : String → ℕ) :
    (st.prune draws).n = st.n := rfl

theorem stickyAdmit_r (o : Oracle) (st : StickySampler) :
    (stickyAdmit o st).r = st.r := by
  unfold stickyAdmit
  cases mapLookup o.key st.s with
  | some v => rfl
  | none =>
    by_cases h : o.u ≤ 1 / st.r
    · rw [if_pos h]
    · rw [if_neg h]

theorem stickyAdmit_t (o : Oracle) (st : StickySampler) :
    (stickyAdmit o st).t = st.t := by
  unfold stickyAdmit
  cases mapLookup o.key st.s with
  | some v => rfl
  | none =>
    by_cases h : o.u ≤ 1 / st.r
    · rw [if_pos h]
    · rw [if_neg h]

theorem stickyAdmit_n (o : Oracle) (st : StickySampler) :
    (stickyAdmit o st).n = st.n := by
  unfold stickyAdmit
  cases mapLookup o.key st.s with
  | some v => rfl
  | none =>
    by_cases h : o.u ≤ 1 / st.r
    · rw [if_pos h]
    · rw [if_neg h]

theorem stickyObserve_n (o : Oracle) (st : StickySampler) :
    (stickyObserve o st).n = st.n + 1 := by
  unfold stickyObserve
  by_cases h : st.n + 1 > st.t <;>
    simp [h, stickyAdmit_n, stickyPrune_n]

theorem stickyObserve_r (o : Oracle) (st : StickySampler) :
    (stickyObserve o st).r = if st.n + 1 > st.t then st.r * 2 else st.r := by
  unfold stickyObserve
  by_cases h : st.n + 1 > st.t <;>
    simp [h, stickyAdmit_r, stickyPrune_r]

theorem stickyObserve_t (o : Oracle) (st : StickySampler) :
    (stickyObserve o st).t = if st.n + 1 > st.t then st.t * 2 else st.t := by
  unfold stickyObserve
  by_cases h : st.n + 1 > st.t <;>
    simp [h, stickyAdmit_t, stickyPrune_t]

theorem stickyRun_cons (o : Oracle) (l : List Oracle) (st : StickySampler) :
    stickyRun (o :: l) st = stickyRun l (stickyObserve o st) := rfl

theorem stickyRun_no_doubling (l : List Oracle) (st : StickySampler)
    (h : st.n + l.length ≤ st.t) :
    (stickyRun l st).r = st.r ∧ (stickyRun l st).t = st.t ∧
      (stickyRun l st).n = st.n + l.length := by
  induction l generalizing st with
  | nil => simp [stickyRun]
  | cons o l ih =>
    have hlen : (0 : ℚ) ≤ l.length := by positivity
    have hc : st.n + ((l.length : ℚ) + 1) ≤ st.t := by
      have h' := h
      rw [List.length_cons] at h'
      push_cast at h'
      linarith
    have h1 : ¬(st.n + 1 > st.t) := by
      push_neg
      linarith
    have hr := stickyObserve_r o st
    have ht := stickyObserve_t o st
    have hn := stickyObserve_n o st
    rw [if_neg h1] at hr ht
    have hih := ih (stickyObserve o st)
      (by rw [hn, ht]; linarith)
    rw [stickyRun_cons]
    refine ⟨by rw [hih.1, hr], by rw [hih.2.1, ht], ?_⟩
    rw [hih.2.2, hn, List.length_cons]
    push_cast
    ring

theorem stickyRun_doubling_at_boundary (l : List Oracle) (st : StickySampler) (m : ℕ)
    (hn0 : st.n = 0) (hmt : (m : ℚ) ≤ st.t) (htm : st.t < (m : ℚ) + 1)
    (hlen : l.length = m + 1) :
    (stickyRun l st).r = st.r * 2 ∧ (stickyRun l st).t = st.t * 2 := by
  have hne : l ≠ [] := by
    intro hc
    rw [hc] at hlen
    simp at hlen
  obtain ⟨l1, x, hlx⟩ : ∃ l1 x, l = l1 ++ [x] :=
    ⟨l.dropLast, l.getLast hne, (List.dropLast_append_getLast hne).symm⟩
  have hl1 : l1.length = m := by
    have := hlen
    rw [hlx, List.length_append, List.length_singleton] at this
    omega
  have hpre := stickyRun_no_doubling l1 st
    (by rw [hn0, hl1]; simpa using hmt)
  have hrunx : stickyRun l st = stickyObserve x (stickyRun l1 st) := by
    rw [hlx]
    simp [stickyRun, List.foldl_append]
  have hcond : (stickyRun l1 st).n + 1 > (stickyRun l1 st).t := by
    rw [hpre.2.2, hpre.2.1, hn0, hl1]
    linarith
  constructor
  · rw [hrunx, stickyObserve_r, if_pos hcond, hpre.1]
  · rw [hrunx, stickyObserve_t, if_pos hcond, hpre.2.1]

/-! ### LossyCounter helper lemmas -/

theorem lossyPrune_n (c : LossyCounter) (bucket : ℕ) :
    (c.prune bucket).n = c.n := rfl

theorem lossyPrune_d (c : LossyCounter) (bucket : ℕ) :
    (c.prune bucket).d =
      ((c.d.filter (fun kv =>
          decide (kv.2.f + kv.2.delta ≤ (bucket : ℚ)))).map Prod.fst).foldl
        (fun m k => mapEraseKey k m) c.d := rfl

theorem lossyPrune_lookup (c : LossyCounter) (bucket : ℕ) (j : String)
    (hnd : (mapKeys c.d).Nodup) :
    mapLookup j (c.prune bucket).d =
      match mapLookup j c.d with
      | some v => if v.f + v.delta ≤ (bucket : ℚ) then none else some v
      | none => none := by
  rw [lossyPrune_d]
  rw [mapLookup_foldl_eraseKey _ _ _ hnd]
  cases hv : mapLookup j c.d with
  | none =>
    have hj : j ∉ (c.d.filter (fun kv =>
        decide (kv.2.f + kv.2.delta ≤ (bucket : ℚ)))).map Prod.fst := by
      intro hc
      obtain ⟨kv, hkv, hfst⟩ := List.mem_map.mp hc
      have hmem := (List.mem_filter.mp hkv).1
      rw [mapLookup_eq_none] at hv
      exact hv (by simpa [mapKeys_def, hfst] using List.mem_map.mpr ⟨kv, hmem, hfst⟩)
    rw [if_neg hj]
  | some v =>
    by_cases hcond : v.f + v.delta ≤ (bucket : ℚ)
    · have hj : j ∈ (c.d.filter (fun kv =>
          decide (kv.2.f + kv.2.delta ≤ (bucket : ℚ)))).map Prod.fst := by
        refine List.mem_map.mpr ⟨(j, v), List.mem_filter.mpr ⟨mapLookup_mem hv, ?_⟩, rfl⟩
        simpa using hcond
      rw [if_pos hj]
      simp [hcond]
    · have hj : j ∉ (c.d.filter (fun kv =>
          decide (kv.2.f + kv.2.delta ≤ (bucket : ℚ)))).map Prod.fst := by
        intro hc
        obtain ⟨kv, hkv, hfst⟩ := List.mem_map.mp hc
        obtain ⟨hmem, hp⟩ := List.mem_filter.mp hkv
        obtain ⟨k', v'⟩ := kv
        subst hfst
        have : mapLookup k' c.d = some v' := mem_mapLookup hmem hnd
        rw [hv] at this
        injection this with hvv
        subst hvv
        simp at hp
        exact hcond hp
      rw [if_neg hj]
      simp [hcond]

theorem lossyObserve_unfold (c : LossyCounter) (key : String) :
    c.observe key =
      (if (c.n + 1) % c.bucket_width = 0 then
        LossyCounter.prune
          { c with n := c.n + 1, d := mapInsert key (lossySpecUpdate c key) c.d }
          ((c.n + 1) / c.bucket_width + 1)
      else { c with n := c.n + 1, d := mapInsert key (lossySpecUpdate c key) c.d }) := by
  unfold LossyCounter.observe lossySpecUpdate
  cases mapLookup key c.d <;> rfl

theorem lossyObserve_n (c : LossyCounter) (key : String) :
    (c.observe key).n = c.n + 1 := by
  rw [lossyObserve_unfold]
  by_cases h : (c.n + 1) % c.bucket_width = 0
  · rw [if_pos h, lossyPrune_n]
  · rw [if_neg h]

theorem nodup_lossyObserve (c : LossyCounter) (key : String)
    (hnd : (mapKeys c.d).Nodup) : (mapKeys (c.observe key).d).Nodup := by
  rw [lossyObserve_unfold]
  by_cases h : (c.n + 1) % c.bucket_width = 0
  · rw [if_pos h, lossyPrune_d]
    exact nodup_mapKeys_foldl_eraseKey _ _ (nodup_mapKeys_mapInsert _ _ _ hnd)
  · rw [if_neg h]
    exact nodup_mapKeys_mapInsert _ _ _ hnd

theorem lossyObserve_lookup (c : LossyCounter) (key j : String)
    (hnd : (mapKeys c.d).Nodup) :
    mapLookup j (c.observe key).d =
      (if (c.n + 1) % c.bucket_width = 0 then
        match (if key = j then some (lossySpecUpdate c key) else mapLookup j c.d) with
        | some v =>
          if v.f + v.delta ≤ (((c.n + 1) / c.bucket_width + 1 : ℕ) : ℚ) then none
          else some v
        | none => none
      else (if key = j then some (lossySpecUpdate c key) else mapLookup j c.d)) := by
  rw [lossyObserve_unfold]
  by_cases h : (c.n + 1) % c.bucket_width = 0
  · rw [if_pos h, if_pos h]
    rw [lossyPrune_lookup _ _ _ (nodup_mapKeys_mapInsert _ _ _ hnd)]
    rw [mapLookup_mapInsert]
  · rw [if_neg h, if_neg h]
    rw [mapLookup_mapInsert]

/-! ### NaiveSampler helper lemmas -/

theorem naiveObserve_sum (s : NaiveSampler) (key : String)
    (h : mapSum s.vals = s.n) :
    mapSum ((s.observe key).vals) = (s.observe key).n := by
  unfold NaiveSampler.observe
  simp only [mapSum_observe_update, h]

theorem naiveRun_sum_aux (l : List String) :
    ∀ s : NaiveSampler, mapSum s.vals = s.n →
      mapSum ((l.foldl NaiveSampler.observe s).vals) =
        (l.foldl NaiveSampler.observe s).n := by
  induction l with
  | nil => intro s h; simpa using h
  | cons k l ih =>
    intro s h
    simp only [List.foldl_cons]
    exact ih _ (naiveObserve_sum s k h)

theorem naiveCutoff_eq_floor (s : NaiveSampler) (threshold : ℚ) (h : 0 ≤ threshold) :
    (naiveCutoff s threshold : ℤ) = ⌊(s.n : ℚ) * threshold⌋ := by
  unfold naiveCutoff
  rw [Int.toNat_of_nonneg]
  exact Int.floor_nonneg.mpr (by positivity)

/-! ### Claim theorems -/

/-- C1: LossyCounter.observe follows the specified algorithm.  Every call
increments n; with currentBucket = floor(n/bucketWidth) + 1 computed from
the incremented n, an already-tracked key gets f + 1 with delta unchanged
while a new key enters with f = 1 and delta = currentBucket - 1
(lossySpecUpdate); and exactly when n is a multiple of bucketWidth every
entry whose f + delta <= currentBucket is removed — on any other call no
entry is removed. -/
theorem lossy_observe_follows_algorithm (c : LossyCounter) (key : String)
    (_hw : 0 < c.bucket_width) (hnd : (mapKeys c.d).Nodup) :
    (c.observe key).n = c.n + 1 ∧
      ∀ j, mapLookup j (c.observe key).d =
        (if (c.n + 1) % c.bucket_width = 0 then
          match (if key = j then some (lossySpecUpdate c key) else mapLookup j c.d) with
          | some v =>
            if v.f + v.delta ≤ (((c.n + 1) / c.bucket_width + 1 : ℕ) : ℚ) then none
            else some v
          | none => none
        else (if key = j then some (lossySpecUpdate c key) else mapLookup j c.d)) :=
  ⟨lossyObserve_n c key, fun j => lossyObserve_lookup c key j hnd⟩

/-- C2: LossyCounter.items_above_threshold returns exactly the tracked
entries with f >= (threshold - delta) * n, each reported with
frequency = f / n + support — the spec's literal formula, unit mixing and
all. -/
theorem lossy_items_above_threshold_spec (c : LossyCounter) (threshold : ℚ)
    (k : String) (q : ℚ) :
    Entry.mk k q ∈ c.items_above_threshold threshold ↔
      ∃ v : FDeltaPair, (k, v) ∈ c.d ∧
        (threshold - v.delta) * (c.n : ℚ) ≤ v.f ∧
        q = v.f / (c.n : ℚ) + c.support := by
  unfold LossyCounter.items_above_threshold
  simp only [List.mem_map, List.mem_filter, decide_eq_true_eq]
  constructor
  · rintro ⟨⟨k', v⟩, ⟨hmem, hp⟩, heq⟩
    injection heq with h1 h2
    subst h1
    subst h2
    exact ⟨v, hmem, hp, rfl⟩
  · rintro ⟨v, hmem, hp, rfl⟩
    exact ⟨(k, v), ⟨hmem, hp⟩, rfl⟩

/-- C3 counterexample: one doubling event where every tracked key draws
two "continue" flips.  Key "a" (count 3) survives but is decremented by
two units — more than the single unit the claim allows — and key "b"
(count 2) is thinned to 0 yet stays tracked instead of being evicted. -/
theorem sticky_prune_single_decrement_cex :
    mapLookup "a" (stC3.prune drawsC3).s = some 1 ∧
      mapLookup "b" (stC3.prune drawsC3).s = some 0 ∧ ¬((3 : ℚ) - 1 ≤ 1) := by
  refine ⟨?_, ?_, by norm_num⟩ <;>
    · simp [StickySampler.prune, stC3, drawsC3, decrOne, mapLookup, mapInsert,
        mapEraseKey, List.replicate]
      norm_num

/-- C3 amended: at a doubling event, for a tracked key with stored count v
and k injected "continue" flips: with k = 0 the key is untouched; with
k >= 1 it is evicted iff v - 1 <= 0 (the test recomputes v - 1 from the
stored count on every flip); otherwise it survives decremented by the full
k units, which may take its count to zero or below while it stays
tracked. -/
theorem sticky_prune_characterization (st : StickySampler) (draws : String → ℕ)
    (j : String) (hnd : (mapKeys st.s).Nodup) :
    mapLookup j (st.prune draws).s =
      match mapLookup j st.s with
      | none => none
      | some v =>
        if draws j = 0 then some v
        else if v - 1 ≤ 0 then none
        else some (v - (draws j : ℚ)) :=
  stickyPrune_lookup st draws j hnd

/-- Witness for the amended C3 at a concrete sampler: an untouched key, a
key thinned to 0 that stays, and an evicted key. -/
theorem sticky_prune_characterization_witness :
    mapLookup "a" (stPW.prune drawsW).s = some 3 ∧
      mapLookup "b" (stPW.prune drawsW).s = some 0 ∧
      mapLookup "c" (stPW.prune drawsW).s = none := by
  have ha := sticky_prune_characterization stPW drawsW "a" (by simp [stPW])
  have hb := sticky_prune_characterization stPW drawsW "b" (by simp [stPW])
  have hc := sticky_prune_characterization stPW drawsW "c" (by simp [stPW])
  refine ⟨?_, ?_, ?_⟩
  · rw [ha]; simp [stPW, drawsW, mapLookup]
  · rw [hb]; simp [stPW, drawsW, mapLookup]
  · rw [hc]; simp [stPW, drawsW, mapLookup]

/-- C4 (what the code does): neither constructor validates its arguments
or can fail — for every parameter choice, including errorTolerance = 0 and
support/failureProb outside (0,1), a fully formed, usable counter value is
returned; there is no error path at construction time. -/
theorem constructors_total_no_error
    (support error_tolerance failure_prob ln_term : ℚ) :
    (new_lossy_counter support error_tolerance).n = 0 ∧
      (new_lossy_counter support error_tolerance).d = [] ∧
      (new_sampler support error_tolerance failure_prob ln_term).n = 0 ∧
      (new_sampler support error_tolerance failure_prob ln_term).r = 1 ∧
      (new_sampler support error_tolerance failure_prob ln_term).s = [] :=
  ⟨rfl, rfl, rfl, rfl, rfl⟩

/-- C8: for every observation sequence fed to the ExactCounter, the sum of
all stored per-key counts equals n. -/
theorem naive_sum_counts_eq_n (l : List String) :
    mapSum (naiveRun l).vals = (naiveRun l).n :=
  naiveRun_sum_aux l new_naive_sampler rfl

/-- C9: items_above_threshold called before any observe (n = 0) returns
the empty result for all three counters; the embedded functions are total,
so no division error is raised or propagated. -/
theorem items_empty_before_observe
    (threshold support error_tolerance failure_prob ln_term : ℚ) :
    new_naive_sampler.items_above_threshold threshold = [] ∧
      (new_lossy_counter support error_tolerance).items_above_threshold threshold
        = [] ∧
      (new_sampler support error_tolerance failure_prob
        ln_term).items_above_threshold threshold = [] :=
  ⟨rfl, rfl, rfl⟩

/-- C10: a key not currently tracked that is observed on a call where the
incremented n is an exact multiple of bucketWidth is inserted with f = 1
and delta = currentBucket - 1 and removed again by the prune of the same
call (f + delta = currentBucket): it is not tracked afterwards. -/
theorem lossy_boundary_key_not_tracked (c : LossyCounter) (key : String)
    (hnd : (mapKeys c.d).Nodup) (hkey : mapLookup key c.d = none)
    (hb : (c.n + 1) % c.bucket_width = 0) :
    mapLookup key (c.observe key).d = none := by
  rw [lossyObserve_lookup c key key hnd, if_pos hb, if_pos rfl]
  unfold lossySpecUpdate
  rw [hkey]
  simp only [Nat.add_sub_cancel]
  have hcond : (1 : ℚ) + (((c.n + 1) / c.bucket_width : ℕ) : ℚ) ≤
      (((c.n + 1) / c.bucket_width : ℕ) : ℚ) + 1 := by linarith
  simp [hcond]

/-- Witness for C10: a fresh key observed at the n = 2 boundary of a
width-2 counter is gone after the call. -/
theorem lossy_boundary_key_not_tracked_witness :
    mapLookup "a" (cC10.observe "a").d = none := by
  apply lossy_boundary_key_not_tracked cC10 "a"
  · simp [cC10]
  · rfl
  · norm_num [cC10]

/-- Witness for C1: observing the tracked key "a" at n = 1 of a width-2
counter crosses the n = 2 boundary; the entry becomes (f = 3, delta = 0)
and survives the prune since 3 + 0 > currentBucket = 2. -/
theorem lossy_observe_follows_algorithm_witness :
    (cLW.observe "a").n = 2 ∧
      mapLookup "a" (cLW.observe "a").d = some { f := 3, delta := 0 } := by
  have h := lossy_observe_follows_algorithm cLW "a" (by norm_num [cLW])
    (by simp [cLW])
  constructor
  · rw [h.1]
    rfl
  · rw [h.2 "a"]
    simp [cLW, lossySpecUpdate, mapLookup]
    norm_num

/-- C5: ExactCounter items_above_threshold computes the integer cutoff
floor(n * threshold) and returns exactly the keys whose stored count is at
least the cutoff, each with frequency count / n. -/
theorem naive_items_above_threshold_spec (s : NaiveSampler) (threshold : ℚ)
    (hth : 0 ≤ threshold) :
    (naiveCutoff s threshold : ℤ) = ⌊(s.n : ℚ) * threshold⌋ ∧
      ∀ k q, Entry.mk k q ∈ s.items_above_threshold threshold ↔
        ∃ cnt : ℕ, (k, cnt) ∈ s.vals ∧ naiveCutoff s threshold ≤ cnt ∧
          q = (cnt : ℚ) / (s.n : ℚ) := by
  refine ⟨naiveCutoff_eq_floor s threshold hth, fun k q => ?_⟩
  unfold NaiveSampler.items_above_threshold
  simp only [List.mem_map, List.mem_filter, decide_eq_true_eq]
  constructor
  · rintro ⟨⟨k', cnt⟩, ⟨hmem, hp⟩, heq⟩
    injection heq with h1 h2
    subst h1
    subst h2
    exact ⟨cnt, hmem, hp, rfl⟩
  · rintro ⟨cnt, hmem, hp, rfl⟩
    exact ⟨(k, cnt), ⟨hmem, hp⟩, rfl⟩

/-- Witness for C5 on a 4-observation sampler at threshold 1/2: the cutoff
is 2, key "a" (count 3) is reported at 3/4, key "b" (count 1) is not. -/
theorem naive_items_above_threshold_spec_witness :
    (naiveCutoff sNW (1/2) : ℤ) = 2 ∧
      Entry.mk "a" (3/4) ∈ sNW.items_above_threshold (1/2) ∧
      ¬Entry.mk "b" (1/4) ∈ sNW.items_above_threshold (1/2) := by
  have h := naive_items_above_threshold_spec sNW (1/2) (by norm_num)
  refine ⟨by rw [h.1]; norm_num [sNW], ?_, ?_⟩
  · refine (h.2 "a" (3/4)).mpr ⟨3, by simp [sNW], ?_, by norm_num [sNW]⟩
    have hf : (⌊((sNW.n : ℕ) : ℚ) * (1/2)⌋ : ℤ) = 2 := by norm_num [sNW]
    have h2 := h.1
    rw [hf] at h2
    omega
  · intro hc
    obtain ⟨cnt, hm, hcut, hq⟩ := (h.2 "b" (1/4)).mp hc
    have hcnt : cnt = 1 := by simpa [sNW] using hm
    subst hcnt
    have hf : (⌊((sNW.n : ℕ) : ℚ) * (1/2)⌋ : ℤ) = 2 := by norm_num [sNW]
    have h2 := h.1
    rw [hf] at h2
    omega

/-- C6: per observe call, r and t either both stay or both double (they
never shrink); and from a fresh sampler (n = 0) with m <= t < m+1, any
m+1 observations leave r and t unchanged through every prefix of length at
most m and double each exactly once at the final call. -/
theorem sticky_rate_doubling :
    (∀ (o : Oracle) (st : StickySampler),
      ((stickyObserve o st).r = st.r ∧ (stickyObserve o st).t = st.t) ∨
        ((stickyObserve o st).r = st.r * 2 ∧ (stickyObserve o st).t = st.t * 2)) ∧
    (∀ (l : List Oracle) (st : StickySampler) (m : ℕ),
      st.n = 0 → (m : ℚ) ≤ st.t → st.t < (m : ℚ) + 1 → l.length = m + 1 →
        ((stickyRun l st).r = st.r * 2 ∧ (stickyRun l st).t = st.t * 2 ∧
          ∀ k, k ≤ m →
            (stickyRun (l.take k) st).r = st.r ∧
              (stickyRun (l.take k) st).t = st.t)) := by
  constructor
  · intro o st
    by_cases h : st.n + 1 > st.t
    · right
      rw [stickyObserve_r, stickyObserve_t, if_pos h, if_pos h]
      exact ⟨rfl, rfl⟩
    · left
      rw [stickyObserve_r, stickyObserve_t, if_neg h, if_neg h]
      exact ⟨rfl, rfl⟩
  · intro l st m hn0 hmt htm hlen
    obtain ⟨hr, ht⟩ := stickyRun_doubling_at_boundary l st m hn0 hmt htm hlen
    refine ⟨hr, ht, fun k hk => ?_⟩
    have hkl : (l.take k).length = k := by
      rw [List.length_take]
      omega
    have hpre := stickyRun_no_doubling (l.take k) st
      (by
        rw [hn0, hkl]
        have : (k : ℚ) ≤ (m : ℚ) := by exact_mod_cast hk
        linarith)
    exact ⟨hpre.1, hpre.2.1⟩

/-- Witness for C6: with t = 3/2 (so floor t = 1), two observations double
r from 1 to 2 and t from 3/2 to 3, while the first observation alone
changes neither. -/
theorem sticky_rate_doubling_witness :
    (stickyRun [oW, oW] stDW).r = stDW.r * 2 ∧
      (stickyRun [oW, oW] stDW).t = stDW.t * 2 ∧
      (stickyRun [oW] stDW).r = stDW.r ∧ (stickyRun [oW] stDW).t = stDW.t := by
  have h := sticky_rate_doubling.2 [oW, oW] stDW 1 (by norm_num [stDW])
    (by norm_num [stDW]) (by norm_num [stDW]) (by norm_num)
  refine ⟨h.1, h.2.1, ?_, ?_⟩
  · have h1 := (h.2.2 1 (le_refl 1)).1
    simpa using h1
  · have h1 := (h.2.2 1 (le_refl 1)).2
    simpa using h1

/-- The constructor at errorTolerance = 1/2 yields bucket width 2. -/
theorem new_lossy_counter_half : new_lossy_counter (1/100) (1/2) = cA0 := by
  unfold new_lossy_counter cA0
  norm_num
  rfl

/-- C7 (code bug exhibit): with errorTolerance = 1/2 (bucket width 2) and
the stream "a","a","a", the tracked entry for "a" after the third observe
is (f = 1, delta = 1) while its true count is 3 — the undercount
3 - 1 = 2 exceeds delta = 1, violating the claimed error bound.  The
culprit is the bucket index floor(n/width) + 1, which at the boundary
n = 2 equals 2 where the cited paper uses ceil(n/width) = 1, so the prune
removes an entry it should keep. -/
theorem lossy_error_bound_violation :
    mapLookup "a" (lossyRun (new_lossy_counter (1/100) (1/2)) ["a", "a", "a"]).d =
        some { f := 1, delta := 1 } ∧
      (lossyRun (new_lossy_counter (1/100) (1/2)) ["a", "a", "a"]).n = 3 ∧
      ¬((["a", "a", "a"].count "a" : ℚ) - 1 ≤ 1) := by
  have s1 : cA0.observe "a" = cA1 := by
    simp [cA0, cA1, LossyCounter.observe, LossyCounter.prune, mapLookup, mapInsert,
      mapEraseKey]
  have s2 : cA1.observe "a" = cA2 := by
    simp [cA1, cA2, LossyCounter.observe, LossyCounter.prune, mapLookup, mapInsert,
      mapEraseKey]
    norm_num
    simp [mapEraseKey]
  have s3 : cA2.observe "a" = cA3 := by
    simp [cA2, cA3, LossyCounter.observe, LossyCounter.prune, mapLookup, mapInsert,
      mapEraseKey]
  have hrun : lossyRun (new_lossy_counter (1/100) (1/2)) ["a", "a", "a"] = cA3 := by
    rw [lossyRun, List.foldl_cons, List.foldl_cons, List.foldl_cons, List.foldl_nil,
      new_lossy_counter_half, s1, s2, s3]
  have hcnt : (["a", "a", "a"].count "a") = 3 := rfl
  rw [hrun, hcnt]
  refine ⟨by simp [cA3, mapLookup], rfl, by norm_num⟩
